import Mathlib

/-!
Shallow embedding of the capabilities-set core of the `caps` package
(capability bit sets, their hexadecimal serialization, capability-name
ordering, kernel-structure packing, and errno boxing), together with
theorems settling the specification claims about it.

Machine integers are modelled as `Nat` carrying the `uint32` range
invariant (`< 2^32`) explicitly where it matters; Go `int` capability
numbers are modelled as `Int` so that the negative-number panic branch
is visible; code that can panic or return a Go `error` is modelled with
`Option`, `none` being the panic / error outcome.
-/

namespace Caps

/-- Embedding of `CapabilitiesSet []uint32`: a dynamically sized list of
32-bit words, each word held as a `Nat` below `2^32`. -/
abbrev CapabilitiesSet := List Nat

/-- Embedding of the constant `capDataElements = LINUX_CAPABILITY_U32S_3`:
the canonical platform word count of the version-3 capability user data. -/
def capDataElements : Nat := 3

/-- Embedding of `wordBitIndices(capno int)`: the word element index and the
bit number of a capability number, `capno >> 5` and `capno & 31` in the
source. The source panics on a negative capability number; this is the
`none` outcome. For a non-negative `capno` the Go arithmetic shift and
mask coincide with `Nat` shift and mask on `capno.toNat`. -/
def wordBitIndices (capno : Int) : Option (Nat × Nat) :=
  if capno < 0 then none
  else some (capno.toNat >>> 5, capno.toNat &&& 31)

/-- Embedding of `(*CapabilitiesSet).ensure(wordindex int)`: appends zero
words so that the element at `wordindex` exists. -/
def ensure (c : CapabilitiesSet) (wordindex : Nat) : CapabilitiesSet :=
  if wordindex ≥ c.length then c ++ List.replicate (wordindex - c.length + 1) 0
  else c

/-- Embedding of `(*CapabilitiesSet).Add(capno int)` for a single capability
number (the variadic source loops this body over all given numbers):
ensure the target word exists, then OR the bit in. `none` is the panic on
a negative capability number raised by `wordBitIndices`. -/
def Add (c : CapabilitiesSet) (capno : Int) : Option CapabilitiesSet :=
  (wordBitIndices capno).map fun wb =>
    let c' := ensure c wb.1
    c'.set wb.1 ((c'.getD wb.1 0) ||| (1 <<< wb.2))

/-- Embedding of `(*CapabilitiesSet).Drop(capno int)` for a single
capability number: when the target word is beyond the stored length the
set is left unchanged (never grown), otherwise the bit is masked out with
the 32-bit complement `^(uint32(1) << bitno)`, i.e.
`0xffffffff ^^^ (1 <<< bitno)`. `none` is the panic on a negative number. -/
def Drop (c : CapabilitiesSet) (capno : Int) : Option CapabilitiesSet :=
  (wordBitIndices capno).map fun wb =>
    if wb.1 ≥ c.length then c
    else c.set wb.1 ((c.getD wb.1 0) &&& (0xffffffff ^^^ (1 <<< wb.2)))

/-- Embedding of `CapabilitiesSet.Has(capno int)`: false for a word index
beyond the stored length, otherwise the bit test
`c[wordindex] & (1 << bitno) != 0`. `none` is the panic on a negative
capability number. -/
def Has (c : CapabilitiesSet) (capno : Int) : Option Bool :=
  (wordBitIndices capno).map fun wb =>
    if wb.1 ≥ c.length then false
    else decide ((c.getD wb.1 0) &&& (1 <<< wb.2) ≠ 0)

/-- Embedding of `AllCapabilities()`, parametrized by the memoized process
global `lastCapability` that the source reads: `maxindex` full words of
all ones followed by a top word `^uint32(0) >> (31 - maxbitno)`. `none`
is the panic `wordBitIndices` raises on a negative `lastCapability`. -/
def AllCapabilities (lastCapability : Int) : Option CapabilitiesSet :=
  (wordBitIndices lastCapability).map fun wb =>
    List.replicate wb.1 0xffffffff ++ [0xffffffff >>> (31 - wb.2)]

/-- Embedding of one hex digit of `fmt.Sprintf("%08x", v)`: lowercase
hexadecimal digit character for a nibble value below 16. -/
def hexDigit (n : Nat) : Char :=
  if n < 10 then Char.ofNat (48 + n) else Char.ofNat (87 + n)

/-- Embedding of `fmt.Sprintf("%08x", v)` for a `uint32` value `v`: exactly
eight lowercase hex digits, most significant nibble first, zero padded. -/
def word8hex (v : Nat) : List Char :=
  [hexDigit ((v >>> 28) &&& 15), hexDigit ((v >>> 24) &&& 15),
   hexDigit ((v >>> 20) &&& 15), hexDigit ((v >>> 16) &&& 15),
   hexDigit ((v >>> 12) &&& 15), hexDigit ((v >>> 8) &&& 15),
   hexDigit ((v >>> 4) &&& 15), hexDigit (v &&& 15)]

/-- Character list of `CapabilitiesSet.Hex()`: the loop renders words from
index `size-1` down to `0` where `size = max(capDataElements, len(c))`,
reading a zero for any index at or beyond the stored length. -/
def hexChars (c : CapabilitiesSet) : List Char :=
  (((List.range (max capDataElements c.length)).reverse).map
    (fun idx => word8hex (c.getD idx 0))).flatten

/-- Embedding of `CapabilitiesSet.Hex()`: the hexadecimal representation of
a capabilities set. -/
def Hex (c : CapabilitiesSet) : String :=
  String.mk (hexChars c)

/-- Embedding of `encoding/hex.fromHexChar`: the value of one hex digit
character, `none` for a non-hexadecimal character. -/
def hexDigitVal (ch : Char) : Option Nat :=
  if 48 ≤ ch.toNat ∧ ch.toNat ≤ 57 then some (ch.toNat - 48)
  else if 97 ≤ ch.toNat ∧ ch.toNat ≤ 102 then some (ch.toNat - 87)
  else if 65 ≤ ch.toNat ∧ ch.toNat ≤ 70 then some (ch.toNat - 55)
  else none

/-- Embedding of `encoding/hex.DecodeString`: pairs of hex digits become
bytes; an odd number of digits or a non-hexadecimal character is an
error (`none`). -/
def decodeHex : List Char → Option (List Nat)
  | [] => some []
  | [_] => none
  | a :: b :: rest =>
    match hexDigitVal a, hexDigitVal b, decodeHex rest with
    | some hi, some lo, some tail => some ((hi * 16 + lo) :: tail)
    | _, _, _ => none

/-- Embedding of the left zero-padding
`append([]byte{0,0,0}[:(4-len(b)&3)&3], b...)` in `CapabilitiesFromHex`:
prepend zero bytes up to the next multiple of four bytes. -/
def padBytes (b : List Nat) : List Nat :=
  List.replicate ((4 - b.length % 4) % 4) 0 ++ b

/-- Embedding of the word-assembly loop of `CapabilitiesFromHex`: the
padded byte list is taken four big-endian bytes at a time, most
significant group first. The source loop walks `idx` from `len(b)-4`
down to `0` in steps of four, appending the last group first; on a list
whose length is a multiple of four that is the reverse of this grouping. -/
def groupWords : List Nat → List Nat
  | b0 :: b1 :: b2 :: b3 :: rest =>
    (b0 * 2^24 + b1 * 2^16 + b2 * 2^8 + b3) :: groupWords rest
  | _ => []

/-- Embedding of `CapabilitiesFromHex(h string)`: hex-decode, left-pad the
bytes to a word boundary, and regroup into 32-bit words stored least
significant word first. `none` is the decode error return. -/
def CapabilitiesFromHex (h : String) : Option CapabilitiesSet :=
  (decodeHex h.toList).map fun b => (groupWords (padBytes b)).reverse

/-- Embedding of `isAnonymousCapability(name string)`: true when the name
starts with `CAP_` followed only by digits. -/
def isAnonymousCapability (name : List Char) : Bool :=
  if ¬ ("CAP_".toList.isPrefixOf name) then false
  else (name.drop 4).all Char.isDigit

/-- Embedding of `strings.Compare`: three-way lexicographic comparison,
character-wise (byte-wise in the source; the two coincide on the ASCII
capability names this package compares). -/
def lexCompare : List Char → List Char → Int
  | [], [] => 0
  | [], _ :: _ => -1
  | _ :: _, [] => 1
  | a :: as, b :: bs =>
    if a < b then -1 else if b < a then 1 else lexCompare as bs

/-- Embedding of `cmpCapName(a, b string)`: an anonymous capability name
orders after any non-anonymous one; otherwise plain lexicographic
string comparison. -/
def cmpCapName (a b : String) : Int :=
  let unknownA := isAnonymousCapability a.toList
  let unknownB := isAnonymousCapability b.toList
  if unknownA ≠ unknownB then (if unknownA then 1 else -1)
  else lexCompare a.toList b.toList

/-- Embedding of `TaskCapabilities`: the effective, permitted and
inheritable capabilities sets of a task. -/
structure TaskCapabilities where
  Effective : CapabilitiesSet
  Permitted : CapabilitiesSet
  Inheritable : CapabilitiesSet

/-- Embedding of one element of `unix.CapUserData` as filled by
`SetForTask`. -/
structure CapUserData where
  effective : Nat
  permitted : Nat
  inheritable : Nat
  deriving DecidableEq, Repr

/-- Embedding of the packing loop of `SetForTask`: the zero-initialized
`capData [capDataElements]unix.CapUserData` array after the loop that
copies `taskcaps` words at indices below both `capDataElements` and the
respective stored length, so each field at index `idx` is the stored word
there or zero. Stored words at or beyond `capDataElements` are never
read. The syscall itself is external I/O and not part of this model. -/
def SetForTaskData (taskcaps : TaskCapabilities) : List CapUserData :=
  (List.range capDataElements).map fun idx =>
    { effective := taskcaps.Effective.getD idx 0
      permitted := taskcaps.Permitted.getD idx 0
      inheritable := taskcaps.Inheritable.getD idx 0 }

/-- Embedding of `syscall.EBADF` on linux. -/
def EBADF : Nat := 9
/-- Embedding of `syscall.ENOTSOCK` on linux. -/
def ENOTSOCK : Nat := 88
/-- Embedding of `syscall.EAGAIN` on linux. -/
def EAGAIN : Nat := 11
/-- Embedding of `syscall.EINVAL` on linux. -/
def EINVAL : Nat := 22
/-- Embedding of `syscall.ENOENT` on linux. -/
def ENOENT : Nat := 2

/-- Embedding of a Go `error` value as produced by `errno.Error`: either
one of the package-level pre-allocated boxed errno variables, or a
`syscall.Errno` boxed at call time. Both carry the numeric errno code. -/
inductive GoErr where
  | boxed (code : Nat)
  | rawErrno (code : Nat)
  deriving DecidableEq, Repr

/-- Embedding of the pre-allocated `errEBADF` package variable. -/
def errEBADF : GoErr := .boxed EBADF
/-- Embedding of the pre-allocated `errENOTSOCK` package variable. -/
def errENOTSOCK : GoErr := .boxed ENOTSOCK
/-- Embedding of the pre-allocated `errEAGAIN` package variable. -/
def errEAGAIN : GoErr := .boxed EAGAIN
/-- Embedding of the pre-allocated `errEINVAL` package variable. -/
def errEINVAL : GoErr := .boxed EINVAL
/-- Embedding of the pre-allocated `errENOENT` package variable. -/
def errENOENT : GoErr := .boxed ENOENT

/-- Embedding of `errno.Error(e syscall.Errno)`: zero maps to `nil`
(`none`), the five well-known codes map to the pre-allocated boxed
values, and any other code is returned as the errno itself. -/
def Error (e : Nat) : Option GoErr :=
  if e = 0 then none
  else if e = EBADF then some errEBADF
  else if e = ENOTSOCK then some errENOTSOCK
  else if e = EAGAIN then some errEAGAIN
  else if e = EINVAL then some errEINVAL
  else if e = ENOENT then some errENOENT
  else some (.rawErrno e)

/-- Modelled from the spec: the `Error() string` rendering of a
`syscall.Errno` lives in the Go runtime, outside this repository. The
spec and the package's own test (`Error(42000)` matches `"errno 42000"`)
pin the rendering of a code outside the well-known message table to
`"errno "` followed by the decimal code. -/
def rawErrnoString (code : Nat) : String :=
  "errno " ++ toString code

/-! Helper lemmas shared by the claim theorems. -/

/-- On a non-negative capability number, `wordBitIndices` is plain division
and remainder by the word width 32. -/
lemma wordBitIndices_of_nonneg (n : Int) (h : 0 ≤ n) :
    wordBitIndices n = some (n.toNat / 32, n.toNat % 32) := by
  have h32 : n.toNat &&& 31 = n.toNat % 32 := by
    simpa using Nat.and_pow_two_sub_one_eq_mod n.toNat 5
  have hdiv : n.toNat >>> 5 = n.toNat / 32 := by
    simpa using Nat.shiftRight_eq_div_pow n.toNat 5
  simp [wordBitIndices, Int.not_lt.mpr h, h32, hdiv]

/-- The source's bit test `x & (1 << b) != 0` is `Nat.testBit`. -/
lemma and_shift_testBit (x b : Nat) :
    decide ((x &&& (1 <<< b)) ≠ 0) = x.testBit b := by
  rw [Nat.one_shiftLeft, Nat.and_two_pow]
  cases h : x.testBit b <;> simp [Nat.pos_iff_ne_zero]

/-- Growing a set to hold word index `wi` yields length `max len (wi+1)`. -/
lemma length_ensure (c : CapabilitiesSet) (wi : Nat) :
    (ensure c wi).length = max c.length (wi + 1) := by
  unfold ensure
  split <;> simp <;> omega

/-- C10: parsing the empty hexadecimal string succeeds and yields the
empty, zero-word capabilities set. -/
theorem c10_fromHex_empty : CapabilitiesFromHex "" = some [] := by
  decide

/-- C4: `CapabilitiesFromHex` on `"00"` yields the one-word all-zero set,
on `"80002001"` the single word `0x80002001`, and on `"1180002001"` the
two-word set `[0x80002001, 0x11]`, low word first. -/
theorem c4_fromHex_examples :
    CapabilitiesFromHex "00" = some [0x0] ∧
    CapabilitiesFromHex "80002001" = some [0x80002001] ∧
    CapabilitiesFromHex "1180002001" = some [0x80002001, 0x11] := by
  refine ⟨by decide, by decide, by decide⟩

/-- C9: for every negative capability number, `Has`, `Drop` and `Add` all
reach the contract-violation panic of `wordBitIndices` (the `none`
outcome) instead of returning a value or acting as a no-op. -/
theorem c9_negative_capno_panics (c : CapabilitiesSet) (n : Int) (hn : n < 0) :
    Has c n = none ∧ Drop c n = none ∧ Add c n = none := by
  simp [Has, Drop, Add, wordBitIndices, hn]

/-- Witness for C9 at the concrete set `[7]` and capability number `-1`. -/
theorem c9_negative_capno_panics_witness :
    Has [7] (-1) = none ∧ Drop [7] (-1) = none ∧ Add [7] (-1) = none :=
  c9_negative_capno_panics [7] (-1) (by decide)

/-- C3: after `Add n` the set has `n`; after a subsequent `Drop n` it no
longer has `n`; and `Drop` always leaves the stored word length
unchanged, so dropping a capability that was never added never grows
the set. -/
theorem c3_add_drop_has (c : CapabilitiesSet) (n : Int) (hn : 0 ≤ n) :
    (∃ c', Add c n = some c' ∧ Has c' n = some true ∧
      ∃ c'', Drop c' n = some c'' ∧ Has c'' n = some false) ∧
    (∀ d, Drop c n = some d → d.length = c.length) := by
  have hwb := wordBitIndices_of_nonneg n hn
  set wi := n.toNat / 32 with hwi
  set b := n.toNat % 32 with hb
  have hb32 : b < 32 := Nat.mod_lt _ (by omega)
  constructor
  · -- Add then Has then Drop then Has
    set c₁ := (ensure c wi).set wi (((ensure c wi).getD wi 0) ||| (1 <<< b)) with hc₁
    have hlen₁ : c₁.length = max c.length (wi + 1) := by
      simp [hc₁, length_ensure]
    have hwilt : wi < c₁.length := by omega
    refine ⟨c₁, by simp [Add, hwb, hc₁], ?_, ?_⟩
    · -- Has c₁ n = some true
      have hget : c₁.getD wi 0 = ((ensure c wi).getD wi 0) ||| (1 <<< b) := by
        have : wi < (ensure c wi).length := by
          rw [length_ensure]; omega
        simp [hc₁, List.getD_eq_getElem?_getD, List.getElem?_set_self this]
      simp only [Has, hwb, Option.map_some']
      rw [if_neg (by omega), hget, and_shift_testBit]
      simp [Nat.testBit_or, Nat.one_shiftLeft, Nat.testBit_two_pow_self]
    · -- Drop c₁ n, then Has = some false
      set c₂ := c₁.set wi ((c₁.getD wi 0) &&& (0xffffffff ^^^ (1 <<< b))) with hc₂
      have hlen₂ : c₂.length = c₁.length := by simp [hc₂]
      refine ⟨c₂, ?_, ?_⟩
      · simp only [Drop, hwb, Option.map_some']
        rw [if_neg (by omega)]
      · have hget₂ : c₂.getD wi 0 = (c₁.getD wi 0) &&& (0xffffffff ^^^ (1 <<< b)) := by
          simp [hc₂, List.getD_eq_getElem?_getD, List.getElem?_set_self hwilt]
        have hmask : (0xffffffff ^^^ (1 <<< b)).testBit b = false := by
          have h32 : (0xffffffff : Nat) = 2 ^ 32 - 1 := by norm_num
          rw [Nat.testBit_xor, h32, Nat.testBit_two_pow_sub_one,
            Nat.one_shiftLeft, Nat.testBit_two_pow_self, decide_eq_true hb32]
          rfl
        simp only [Has, hwb, Option.map_some']
        rw [if_neg (by omega), hget₂, and_shift_testBit]
        simp [Nat.testBit_and, hmask]
  · -- Drop preserves the stored length
    intro d hd
    simp only [Drop, hwb, Option.map_some', Option.some.injEq] at hd
    by_cases hcase : wi ≥ c.length
    · rw [if_pos hcase] at hd; rw [← hd]
    · rw [if_neg hcase] at hd; rw [← hd]; simp

/-- Witness for C3 at the empty set and capability number 5. -/
theorem c3_add_drop_has_witness :
    (∃ c', Add [] 5 = some c' ∧ Has c' 5 = some true ∧
      ∃ c'', Drop c' 5 = some c'' ∧ Has c'' 5 = some false) ∧
    (∀ d, Drop [] 5 = some d → d.length = List.length ([] : CapabilitiesSet)) :=
  c3_add_drop_has [] 5 (by decide)

/-- C8: `errno.Error` maps code 0 to `nil`, each of the five well-known
codes to its fixed pre-allocated boxed error value (so equal codes give
the identical value), and every other non-zero code to the errno itself,
which carries the numeric code and renders as `"errno <N>"`. -/
theorem c8_errno_mapping (e : Nat) (h0 : e ≠ 0)
    (hk : e ≠ EBADF ∧ e ≠ ENOTSOCK ∧ e ≠ EAGAIN ∧ e ≠ EINVAL ∧ e ≠ ENOENT) :
    Error 0 = none ∧
    (Error EBADF = some errEBADF ∧ Error ENOTSOCK = some errENOTSOCK ∧
     Error EAGAIN = some errEAGAIN ∧ Error EINVAL = some errEINVAL ∧
     Error ENOENT = some errENOENT) ∧
    Error e = some (.rawErrno e) ∧
    rawErrnoString e = "errno " ++ toString e := by
  obtain ⟨h1, h2, h3, h4, h5⟩ := hk
  refine ⟨by decide, ⟨by decide, by decide, by decide, by decide, by decide⟩, ?_, rfl⟩
  simp [Error, h0, h1, h2, h3, h4, h5]

/-- Witness for C8 at the concrete non-well-known code 42000 that the
package's own test uses. -/
theorem c8_errno_mapping_witness :
    Error 0 = none ∧
    (Error EBADF = some errEBADF ∧ Error ENOTSOCK = some errENOTSOCK ∧
     Error EAGAIN = some errEAGAIN ∧ Error EINVAL = some errEINVAL ∧
     Error ENOENT = some errENOENT) ∧
    Error 42000 = some (.rawErrno 42000) ∧
    rawErrnoString 42000 = "errno " ++ toString 42000 :=
  c8_errno_mapping 42000 (by decide) (by decide)

/-- C7: packing a `TaskCapabilities` triple for the kernel fills, for each
of the three sets, every word index below the platform word count that is
at or beyond that set's stored length with zero, and stored words at or
beyond the platform word count are silently dropped: the packed data of
a triple equals that of the triple truncated to the platform word count,
with no error outcome. -/
theorem c7_setForTask_packing (t : TaskCapabilities) :
    (∀ idx, idx < capDataElements →
      (t.Effective.length ≤ idx →
        ((SetForTaskData t).getD idx ⟨0, 0, 0⟩).effective = 0) ∧
      (t.Permitted.length ≤ idx →
        ((SetForTaskData t).getD idx ⟨0, 0, 0⟩).permitted = 0) ∧
      (t.Inheritable.length ≤ idx →
        ((SetForTaskData t).getD idx ⟨0, 0, 0⟩).inheritable = 0)) ∧
    SetForTaskData t = SetForTaskData
      ⟨t.Effective.take capDataElements, t.Permitted.take capDataElements,
       t.Inheritable.take capDataElements⟩ := by
  have hrange : List.range capDataElements = [0, 1, 2] := by decide
  have hgetD : ∀ (l : CapabilitiesSet) (idx : Nat),
      l.length ≤ idx → l[idx]?.getD 0 = 0 := by
    intro l idx h
    simp [List.getElem?_eq_none h]
  constructor
  · intro idx hidx
    have hidx3 : idx < 3 := hidx
    refine ⟨fun h => ?_, fun h => ?_, fun h => ?_⟩ <;>
      · simp only [SetForTaskData, hrange]
        interval_cases idx <;> simp [hgetD _ _ h]
  · simp only [SetForTaskData, hrange, List.map_cons, List.map_nil]
    have ht : ∀ (l : CapabilitiesSet) (idx : Nat), idx < 3 →
        (l.take capDataElements)[idx]? = l[idx]? := fun l idx h =>
      List.getElem?_take_of_lt h
    simp [ht _ 0 (by omega), ht _ 1 (by omega), ht _ 2 (by omega)]

/-- Witness for C7 at a triple with a one-word effective set, an empty
permitted set, and a five-word inheritable set. -/
theorem c7_setForTask_packing_witness :
    ((SetForTaskData ⟨[6], [], [1, 2, 3, 4, 5]⟩).getD 2 ⟨0, 0, 0⟩).effective = 0 ∧
    ((SetForTaskData ⟨[6], [], [1, 2, 3, 4, 5]⟩).getD 1 ⟨0, 0, 0⟩).permitted = 0 ∧
    SetForTaskData ⟨[6], [], [1, 2, 3, 4, 5]⟩ = SetForTaskData
      ⟨List.take capDataElements [6], List.take capDataElements [],
       List.take capDataElements [1, 2, 3, 4, 5]⟩ := by
  have h := c7_setForTask_packing ⟨[6], [], [1, 2, 3, 4, 5]⟩
  exact ⟨(h.1 2 (by decide)).1 (by decide), (h.1 1 (by decide)).2.1 (by decide), h.2⟩

/-- C6: the capability-name comparison orders every anonymous name after
every non-anonymous one, compares names of the same category as plain
lexicographic strings, and on the concrete pairs:
`cmpCapName "CAP_FOO_BAR" "CAP_42"` is negative,
`cmpCapName "CAP_100" "CAP_99"` is negative, and
`cmpCapName "CAP_42" "CAP_42"` is zero. -/
theorem c6_cmpCapName (a b : String) :
    (isAnonymousCapability a.toList = true →
      isAnonymousCapability b.toList = false → 0 < cmpCapName a b) ∧
    (isAnonymousCapability b.toList = true →
      isAnonymousCapability a.toList = false → cmpCapName a b < 0) ∧
    (isAnonymousCapability a.toList = isAnonymousCapability b.toList →
      cmpCapName a b = lexCompare a.toList b.toList) ∧
    cmpCapName "CAP_FOO_BAR" "CAP_42" < 0 ∧
    cmpCapName "CAP_100" "CAP_99" < 0 ∧
    cmpCapName "CAP_42" "CAP_42" = 0 := by
  refine ⟨fun ha hb => ?_, fun hb ha => ?_, fun hab => ?_, by decide, by decide, by decide⟩
  · simp only [String.toList] at ha hb
    simp [cmpCapName, ha, hb]
  · simp only [String.toList] at ha hb
    simp [cmpCapName, ha, hb]
  · simp only [String.toList] at hab
    simp [cmpCapName, hab, String.toList]

/-- Witness for C6 at the concrete pair of an anonymous and a
non-anonymous capability name. -/
theorem c6_cmpCapName_witness :
    0 < cmpCapName "CAP_7" "CAP_NET_ADMIN" ∧
    cmpCapName "CAP_AAA" "CAP_BBB" =
      lexCompare "CAP_AAA".toList "CAP_BBB".toList :=
  ⟨(c6_cmpCapName "CAP_7" "CAP_NET_ADMIN").1 (by decide) (by decide),
   (c6_cmpCapName "CAP_AAA" "CAP_BBB").2.2.1 (by decide)⟩

/-- Hex decoding succeeds exactly on an even number of digits that are all
hexadecimal. -/
lemma decodeHex_isSome : ∀ l : List Char,
    (decodeHex l).isSome ↔
      (l.length % 2 = 0 ∧ ∀ ch ∈ l, (hexDigitVal ch).isSome)
  | [] => by simp [decodeHex]
  | [a] => by simp [decodeHex]
  | a :: b :: rest => by
    have ih := decodeHex_isSome rest
    have hlen : (a :: b :: rest).length % 2 = rest.length % 2 := by
      simp only [List.length_cons]; omega
    simp only [decodeHex, hlen]
    cases ha : hexDigitVal a <;> cases hb : hexDigitVal b <;>
      cases hr : decodeHex rest <;> simp_all

/-- C2 counterexample: the single-digit string `"0"` has an odd number of
hexadecimal digits and `CapabilitiesFromHex` rejects it instead of
zero-extending it, refuting the claim that odd-length inputs are
accepted. -/
theorem c2_counterexample : CapabilitiesFromHex "0" = none := by
  decide

/-- C2 (amended): `CapabilitiesFromHex` rejects hexadecimal strings with
an odd number of digits (the left zero-extension happens only at the
byte level, padding the decoded bytes to a four-byte word boundary);
it succeeds exactly when the digit count is even and every character is
a hexadecimal digit, i.e. it fails with a format error exactly when the
input has an odd number of digits or contains a non-hexadecimal
character. -/
theorem c2_fromHex_error_conditions (h : String) :
    (CapabilitiesFromHex h).isSome ↔
      (h.toList.length % 2 = 0 ∧ ∀ ch ∈ h.toList, (hexDigitVal ch).isSome) := by
  rw [← decodeHex_isSome]
  simp [CapabilitiesFromHex]

/-- Witness for C2 (amended) at the concrete even-length input `"ff"`. -/
theorem c2_fromHex_error_conditions_witness :
    (CapabilitiesFromHex "ff").isSome ↔
      ("ff".toList.length % 2 = 0 ∧ ∀ ch ∈ "ff".toList, (hexDigitVal ch).isSome) :=
  c2_fromHex_error_conditions "ff"

/-- C5: for a non-negative last-capability number `L`, `AllCapabilities`
returns a set of exactly `L/32 + 1` words whose words below the highest
index are all ones, whose highest word is the all-ones word shifted right
by `31 - L % 32`, and which therefore contains exactly the capability
numbers `0` through `L`. -/
theorem c5_allCapabilities (L : Int) (hL : 0 ≤ L) :
    ∃ s, AllCapabilities L = some s ∧
      s.length = L.toNat / 32 + 1 ∧
      (∀ i, i < L.toNat / 32 → s.getD i 0 = 0xffffffff) ∧
      s.getD (L.toNat / 32) 0 = 0xffffffff >>> (31 - L.toNat % 32) ∧
      (∀ n : Int, 0 ≤ n → Has s n = some (decide (n ≤ L))) := by
  have hwb := wordBitIndices_of_nonneg L hL
  set mi := L.toNat / 32 with hmi
  set mb := L.toNat % 32 with hmb
  have hmb32 : mb < 32 := Nat.mod_lt _ (by omega)
  have h32 : (0xffffffff : Nat) = 2 ^ 32 - 1 := by norm_num
  set s : CapabilitiesSet :=
    List.replicate mi 0xffffffff ++ [0xffffffff >>> (31 - mb)] with hs
  have hlen : s.length = mi + 1 := by simp [hs]
  have hword : ∀ i, i < mi → s.getD i 0 = 0xffffffff := by
    intro i hi
    rw [hs, List.getD_eq_getElem?_getD,
      List.getElem?_append_left (by simpa using hi)]
    simp [hi]
  have htop : s.getD mi 0 = 0xffffffff >>> (31 - mb) := by
    rw [hs, List.getD_eq_getElem?_getD, List.getElem?_append_right (by simp)]
    simp
  refine ⟨s, by simp [AllCapabilities, hwb, hs], hlen, hword, htop, ?_⟩
  intro n hn
  have hwbn := wordBitIndices_of_nonneg n hn
  set wi := n.toNat / 32 with hwi
  set b := n.toNat % 32 with hb
  have hb32 : b < 32 := Nat.mod_lt _ (by omega)
  simp only [Has, hwbn, Option.map_some', Option.some.injEq]
  by_cases hcase : wi ≥ s.length
  · have hnL : ¬ (n ≤ L) := by rw [hlen] at hcase; omega
    simp [hcase, hnL]
  · rw [if_neg hcase, and_shift_testBit]
    rw [hlen] at hcase
    by_cases hlt : wi < mi
    · have hnL : n ≤ L := by omega
      rw [hword wi hlt, h32, Nat.testBit_two_pow_sub_one]
      simp [hb32, hnL]
    · have hwim : wi = mi := by omega
      rw [hwim, htop, Nat.testBit_shiftRight, h32, Nat.testBit_two_pow_sub_one]
      rw [decide_eq_decide]
      omega

/-- Witness for C5 at the concrete last-capability number 40. -/
theorem c5_allCapabilities_witness :
    ∃ s, AllCapabilities 40 = some s ∧
      s.length = Int.toNat 40 / 32 + 1 ∧
      (∀ i, i < Int.toNat 40 / 32 → s.getD i 0 = 0xffffffff) ∧
      s.getD (Int.toNat 40 / 32) 0 = 0xffffffff >>> (31 - Int.toNat 40 % 32) ∧
      (∀ n : Int, 0 ≤ n → Has s n = some (decide (n ≤ 40))) :=
  c5_allCapabilities 40 (by decide)

/-- The hex rendering of a nibble parses back to that nibble. -/
lemma hexDigitVal_hexDigit (n : Nat) (h : n < 16) :
    hexDigitVal (hexDigit n) = some n := by
  interval_cases n <;> decide

/-- Hex decoding of one rendered 32-bit word followed by further
characters yields the word's four big-endian bytes followed by the
decoding of the rest. -/
lemma decodeHex_word8hex (v : Nat) (hv : v < 2 ^ 32) (rest : List Char) :
    decodeHex (word8hex v ++ rest) =
      (decodeHex rest).map
        (fun tail =>
          v / 2 ^ 24 :: v / 2 ^ 16 % 256 :: v / 2 ^ 8 % 256 :: v % 256 :: tail) := by
  have hand : ∀ x : Nat, x &&& 15 = x % 16 := fun x => by
    simpa using Nat.and_pow_two_sub_one_eq_mod x 4
  have hshift : ∀ k, v >>> k = v / 2 ^ k := fun k => Nat.shiftRight_eq_div_pow v k
  have hbytes :
      v / 2 ^ 28 % 16 * 16 + v / 2 ^ 24 % 16 = v / 2 ^ 24 ∧
      v / 2 ^ 20 % 16 * 16 + v / 2 ^ 16 % 16 = v / 2 ^ 16 % 256 ∧
      v / 2 ^ 12 % 16 * 16 + v / 2 ^ 8 % 16 = v / 2 ^ 8 % 256 ∧
      v / 2 ^ 4 % 16 * 16 + v % 16 = v % 256 := by
    norm_num
    omega
  simp only [word8hex, hand, hshift, List.cons_append, List.nil_append]
  simp only [decodeHex]
  rw [hexDigitVal_hexDigit _ (by omega), hexDigitVal_hexDigit _ (by omega),
    hexDigitVal_hexDigit _ (by omega), hexDigitVal_hexDigit _ (by omega),
    hexDigitVal_hexDigit _ (by omega), hexDigitVal_hexDigit _ (by omega),
    hexDigitVal_hexDigit _ (by omega), hexDigitVal_hexDigit _ (by omega)]
  cases hr : decodeHex rest with
  | none => simp
  | some tail =>
    simp only [Option.map_some']
    rw [hbytes.1, hbytes.2.1, hbytes.2.2.1, hbytes.2.2.2]

/-- Parsing the hex rendering of a set of at most the canonical three
words yields exactly the three stored-or-zero words, low word first. -/
lemma fromHex_hex_of_short (c : CapabilitiesSet) (hw : ∀ w ∈ c, w < 2 ^ 32)
    (hl : c.length ≤ 3) :
    CapabilitiesFromHex (Hex c) = some [c.getD 0 0, c.getD 1 0, c.getD 2 0] := by
  have hg : ∀ i, c.getD i 0 < 2 ^ 32 := by
    intro i
    rw [List.getD_eq_getElem?_getD]
    cases h : getElem? c i with
    | none => norm_num
    | some w => simpa using hw w (List.getElem?_mem h)
  have hmax : max capDataElements c.length = 3 := by
    simp only [capDataElements]; omega
  have hrange : (List.range 3).reverse = [2, 1, 0] := by decide
  have hchars : (Hex c).toList =
      word8hex (c.getD 2 0) ++ (word8hex (c.getD 1 0) ++
        (word8hex (c.getD 0 0) ++ [])) := by
    simp [Hex, hexChars, hmax, hrange]
  rw [CapabilitiesFromHex, hchars]
  rw [decodeHex_word8hex _ (hg 2) _, decodeHex_word8hex _ (hg 1) _,
    decodeHex_word8hex _ (hg 0) _]
  simp only [decodeHex, Option.map_some']
  have hpad : ∀ b : List Nat, b.length = 12 → padBytes b = b := by
    intro b hb
    simp [padBytes, hb]
  rw [hpad _ (by simp)]
  simp only [groupWords, List.reverse_cons, List.reverse_nil, List.nil_append,
    List.cons_append, Option.some.injEq]
  have hre : ∀ v : Nat, v < 2 ^ 32 →
      v / 2 ^ 24 * 2 ^ 24 + v / 2 ^ 16 % 256 * 2 ^ 16 +
        v / 2 ^ 8 % 256 * 2 ^ 8 + v % 256 = v := by
    intro v hv
    norm_num
    omega
  rw [hre _ (hg 0), hre _ (hg 1), hre _ (hg 2)]

/-- C1: for every capabilities set of valid 32-bit words whose stored
length does not exceed the canonical platform word count,
`CapabilitiesFromHex` of `Hex` succeeds and the result has the same bit
pattern: `Has` agrees with the original on every non-negative capability
number. -/
theorem c1_hex_roundtrip (c : CapabilitiesSet) (hw : ∀ w ∈ c, w < 2 ^ 32)
    (hl : c.length ≤ capDataElements) (n : Int) (hn : 0 ≤ n) :
    ∃ s, CapabilitiesFromHex (Hex c) = some s ∧ Has s n = Has c n := by
  have hl3 : c.length ≤ 3 := hl
  refine ⟨[c.getD 0 0, c.getD 1 0, c.getD 2 0],
    fromHex_hex_of_short c hw hl3, ?_⟩
  have hwbn := wordBitIndices_of_nonneg n hn
  set wi := n.toNat / 32 with hwi
  set b := n.toNat % 32 with hb
  simp only [Has, hwbn, Option.map_some', Option.some.injEq]
  have hslen : ([c.getD 0 0, c.getD 1 0, c.getD 2 0] : CapabilitiesSet).length = 3 :=
    rfl
  by_cases h3 : wi ≥ 3
  · rw [if_pos (by rw [hslen]; omega), if_pos (by omega)]
  · push_neg at h3
    rw [if_neg (by rw [hslen]; omega)]
    have hgetD : ([c.getD 0 0, c.getD 1 0, c.getD 2 0] : CapabilitiesSet).getD wi 0 =
        c.getD wi 0 := by
      interval_cases wi <;> rfl
    rw [hgetD]
    by_cases hcw : wi ≥ c.length
    · rw [if_pos hcw]
      have hz : c.getD wi 0 = 0 := by
        rw [List.getD_eq_getElem?_getD, List.getElem?_eq_none hcw]
        rfl
      simp [List.getD_eq_getElem?_getD] at hz
      simp [List.getD_eq_getElem?_getD, hz]
    · rw [if_neg hcw]

/-- Witness for C1 at the concrete two-word set `[0x80002001, 0x11]` and
capability number 13. -/
theorem c1_hex_roundtrip_witness :
    ∃ s, CapabilitiesFromHex (Hex [0x80002001, 0x11]) = some s ∧
      Has s 13 = Has [0x80002001, 0x11] 13 :=
  c1_hex_roundtrip [0x80002001, 0x11] (by decide) (by decide) 13 (by decide)

end Caps
